import Mathlib

/-!
# Verification of the `negation` validation engine (src/src/index.ts)

Shallow embedding of the constraint-based validation library:
* `NegationError`, the single domain error kind (path, message, constraint id);
* `Constraint` / `MixedConstraint`, the sync and mixed (sync-or-async)
  constraint forms, each either a bare check function or a named object;
* the four evaluators `negation`, `negateObject`, `negationAsync`,
  `negateObjectAsync`, in both `throw` (fail-fast) and `collect` modes.

A JS `throw` of a non-`NegationError` value is modelled by `Thrown.other`.
Async execution is modelled deterministically: a mixed check either throws
synchronously, returns `undefined`, or returns a promise whose eventual
settlement outcome is part of the check's value; for the one evaluator whose
observable behaviour depends on completion order (`negateObjectAsync` in
collect mode) the completion order of suspended checks is an explicit
`schedule` parameter.

Every evaluator additionally reports the trace of constraint invocations
(ghost instrumentation), so that "constraint never invoked" properties can be
stated.
-/

set_option autoImplicit false

namespace Negation

/-- Embedding of the `NegationError` class: path, message, constraint id. -/
structure NegationError where
  path : List String
  message : String
  constraint : String
  deriving DecidableEq, Repr

/-- A value thrown inside a constraint: either a `NegationError` (a domain
violation) or any other exception (an unexpected fault, modelled by a
string). -/
inductive Thrown where
  | neg (e : NegationError)
  | other (f : String)
  deriving DecidableEq, Repr

/-- Embedding of `ValidationMode = 'throw' | 'collect'`. -/
inductive Mode where
  | throw
  | collect
  deriving DecidableEq, Repr

/-- Embedding of `ValidationOptions` (`mode?: ValidationMode`). -/
structure ValidationOptions where
  mode : Option Mode
  deriving DecidableEq, Repr

/-- `options.mode || 'throw'`. -/
def getMode (options : ValidationOptions) : Mode :=
  options.mode.getD Mode.throw

/-- Options value `{}` (mode defaulted). -/
def defaultOpts : ValidationOptions := ⟨none⟩

/-- Options value `{ mode: 'throw' }`. -/
def throwOpts : ValidationOptions := ⟨some Mode.throw⟩

/-- Options value `{ mode: 'collect' }`. -/
def collectOpts : ValidationOptions := ⟨some Mode.collect⟩

/-- Embedding of `Constraint<T>`: either a bare check function or an object
with a `validate` method and a `constraint` name. A check takes the value
and a path and either returns (`.ok`) or throws (`.error`). -/
inductive Constraint (T : Type) where
  | fn (check : T → List String → Except Thrown Unit)
  | named (validate : T → List String → Except Thrown Unit) (name : String)

/-- Running one sync constraint: `typeof c === 'function' ? c(v, path) :
c.validate(v, path)`. -/
def runConstraint {T : Type} (c : Constraint T) (value : T)
    (path : List String) : Except Thrown Unit :=
  match c with
  | .fn check => check value path
  | .named validate _ => validate value path

/-- What a mixed (possibly async) check returns when it does not throw
synchronously: `undefined` (a sync check), or a `Promise` whose eventual
settlement outcome is `r`. -/
inductive MixedResult where
  | retUnit
  | retPromise (r : Except Thrown Unit)

/-- Embedding of `MixedConstraint<T>`: same two shapes as `Constraint<T>`,
but the check may also return a promise. -/
inductive MixedConstraint (T : Type) where
  | fn (check : T → List String → Except Thrown MixedResult)
  | named (validate : T → List String → Except Thrown MixedResult)
      (name : String)

/-- Invoking one mixed constraint (the call itself, before any `await`). -/
def runMixed {T : Type} (c : MixedConstraint T) (value : T)
    (path : List String) : Except Thrown MixedResult :=
  match c with
  | .fn check => check value path
  | .named validate _ => validate value path

/-- The outcome the evaluator observes for one mixed check after the
`if (result instanceof Promise) await result` step: a synchronous throw
surfaces directly, a returned `undefined` is success, a returned promise
yields its settlement outcome. -/
def awaitedOutcome (m : Except Thrown MixedResult) : Except Thrown Unit :=
  match m with
  | .error t => .error t
  | .ok .retUnit => .ok ()
  | .ok (.retPromise r) => r

/-- The synchronous constraint corresponding to a mixed constraint: the
check whose immediate outcome is the mixed check's awaited outcome. -/
def syncOf {T : Type} (c : MixedConstraint T) : Constraint T :=
  match c with
  | .fn check => .fn (fun v path => awaitedOutcome (check v path))
  | .named validate name =>
      .named (fun v path => awaitedOutcome (validate v path)) name

/-- A JS value for object fields: `null`, `undefined`, a string or a
number (numbers modelled as integers). -/
inductive Val where
  | vNull
  | vUndef
  | vStr (s : String)
  | vNum (n : Int)
  deriving DecidableEq, Repr

/- ### Built-in constraints -/

/-- Built-in `notNull`: violates when the value is null or undefined. -/
def notNull : Constraint Val :=
  .named (fun value path =>
    match value with
    | .vNull => .error (.neg ⟨path, "Value must not be null or undefined", "notNull"⟩)
    | .vUndef => .error (.neg ⟨path, "Value must not be null or undefined", "notNull"⟩)
    | _ => .ok ()) "notNull"

/-- Built-in `notEmpty`: violates when the trimmed string is empty. -/
def notEmpty : Constraint String :=
  .named (fun value path =>
    if value.trim = "" then
      .error (.neg ⟨path, "String must not be empty", "notEmpty"⟩)
    else .ok ()) "notEmpty"

/-- Built-in `notNegative`: violates when the number is `< 0`. -/
def notNegative : Constraint Int :=
  .named (fun value path =>
    if value < 0 then
      .error (.neg ⟨path, "Number must not be negative", "notNegative"⟩)
    else .ok ()) "notNegative"

/-- Built-in factory `notLongerThan(maxLength)`. -/
def notLongerThan (maxLength : Int) : Constraint String :=
  .named (fun value path =>
    if (value.length : Int) > maxLength then
      .error (.neg ⟨path,
        "String must not be longer than " ++ toString maxLength ++ " characters",
        "notLongerThan"⟩)
    else .ok ()) "notLongerThan"

/-- Built-in factory `notShorterThan(minLength)`. -/
def notShorterThan (minLength : Int) : Constraint String :=
  .named (fun value path =>
    if (value.length : Int) < minLength then
      .error (.neg ⟨path,
        "String must not be shorter than " ++ toString minLength ++ " characters",
        "notShorterThan"⟩)
    else .ok ()) "notShorterThan"

/-- Built-in factory `notGreaterThan(max)`. -/
def notGreaterThan (max : Int) : Constraint Int :=
  .named (fun value path =>
    if value > max then
      .error (.neg ⟨path,
        "Number must not be greater than " ++ toString max, "notGreaterThan"⟩)
    else .ok ()) "notGreaterThan"

/-- Built-in factory `notLessThan(min)`. -/
def notLessThan (min : Int) : Constraint Int :=
  .named (fun value path =>
    if value < min then
      .error (.neg ⟨path,
        "Number must not be less than " ++ toString min, "notLessThan"⟩)
    else .ok ()) "notLessThan"

/-- Built-in async factory `notDuplicate(checkDuplicate)`: the check returns
a promise; awaiting `checkDuplicate(value)` may itself throw. -/
def notDuplicate {T : Type} (checkDuplicate : T → Except Thrown Bool) :
    MixedConstraint T :=
  .named (fun value path =>
    .ok (.retPromise (match checkDuplicate value with
      | .error t => .error t
      | .ok true =>
          .error (.neg ⟨path, "Value must not be a duplicate", "notDuplicate"⟩)
      | .ok false => .ok ()))) "notDuplicate"

/- ### Single-value synchronous evaluator (`negation`) -/

/-- Result of a successful evaluator call: the original value (throw mode)
or the frozen list of collected errors (collect mode). -/
inductive NegationResult (T : Type) where
  | value (v : T)
  | errors (es : List NegationError)
  deriving DecidableEq

/-- The constraint loop of `negation` (and, with a one-segment path, the
per-field loop of `negateObject`): run the constraints in order against the
value, catching `NegationError`s (rethrown in throw mode, pushed in collect
mode) and rethrowing anything else. Returns the final `errors` list (or the
rethrown value) together with the 0-based indices of the constraints that
were invoked, in invocation order. -/
def negationLoop {T : Type} (mode : Mode) (value : T) (path : List String) :
    List (Constraint T) → Nat → List NegationError →
    Except Thrown (List NegationError) × List Nat
  | [], _, errors => (.ok errors, [])
  | c :: rest, idx, errors =>
    match runConstraint c value path with
    | .ok _ =>
        let r := negationLoop mode value path rest (idx + 1) errors
        (r.1, idx :: r.2)
    | .error (.neg e) =>
        match mode with
        | .throw => (.error (.neg e), [idx])
        | .collect =>
            let r := negationLoop mode value path rest (idx + 1) (errors ++ [e])
            (r.1, idx :: r.2)
    | .error (.other f) => (.error (.other f), [idx])

/-- Embedding of `negation(value, constraints, options)`. `.error` is a
raised exception; `.ok` is the normal return value. -/
def negation {T : Type} (value : T) (constraints : List (Constraint T))
    (options : ValidationOptions) : Except Thrown (NegationResult T) :=
  let mode := getMode options
  match (negationLoop mode value [] constraints 0 []).1 with
  | .error t => .error t
  | .ok errors =>
      .ok (match mode with
        | .collect => .errors errors
        | .throw => .value value)

/-- Ghost trace of `negation`: which constraint indices were invoked. -/
def negationTrace {T : Type} (value : T) (constraints : List (Constraint T))
    (options : ValidationOptions) : List Nat :=
  (negationLoop (getMode options) value [] constraints 0 []).2

/- ### Object/schema synchronous evaluator (`negateObject`) -/

/-- A schema, as iterated by `for (const key in schema)`: the fields in
declaration order, each with its (possibly `undefined`) constraint list.
`schema[key] || []` is `(ocs.getD [])`. -/
abbrev Schema (T : Type) := List (String × Option (List T))

/-- Result of a successful object-evaluator call: the original object
(throw mode) or the frozen error list (collect mode). -/
inductive ObjResult (V : Type) where
  | obj (o : String → V)
  | errors (es : List NegationError)

/-- The field loop of `negateObject`: for each schema field in declaration
order, run the per-field constraint loop on `obj[key]` with path `[key]`,
threading the shared `errors` accumulator. The trace pairs are
(field index, constraint index within the field). -/
def negateObjectLoop {V : Type} (mode : Mode) (obj : String → V) :
    Schema (Constraint V) → Nat → List NegationError →
    Except Thrown (List NegationError) × List (Nat × Nat)
  | [], _, errors => (.ok errors, [])
  | (key, ocs) :: rest, fIdx, errors =>
    let r := negationLoop mode (obj key) [key] (ocs.getD []) 0 errors
    let trF := r.2.map (fun j => (fIdx, j))
    match r.1 with
    | .error t => (.error t, trF)
    | .ok errors2 =>
        let r2 := negateObjectLoop mode obj rest (fIdx + 1) errors2
        (r2.1, trF ++ r2.2)

/-- Embedding of `negateObject(obj, schema, options)`. -/
def negateObject {V : Type} (obj : String → V) (schema : Schema (Constraint V))
    (options : ValidationOptions) : Except Thrown (ObjResult V) :=
  let mode := getMode options
  match (negateObjectLoop mode obj schema 0 []).1 with
  | .error t => .error t
  | .ok errors =>
      .ok (match mode with
        | .collect => .errors errors
        | .throw => .obj obj)

/-- Ghost trace of `negateObject`: the (field, constraint) pairs invoked, in
invocation order. -/
def negateObjectTrace {V : Type} (obj : String → V)
    (schema : Schema (Constraint V)) (options : ValidationOptions) :
    List (Nat × Nat) :=
  (negateObjectLoop (getMode options) obj schema 0 []).2

/- ### Single-value async evaluator (`negationAsync`) -/

/-- The constraint loop of `negationAsync`: identical control flow to
`negationLoop`, but each check is a mixed constraint whose returned promise,
if any, is awaited before the next constraint begins (`awaitedOutcome`). -/
def negationAsyncLoop {T : Type} (mode : Mode) (value : T)
    (path : List String) :
    List (MixedConstraint T) → Nat → List NegationError →
    Except Thrown (List NegationError) × List Nat
  | [], _, errors => (.ok errors, [])
  | c :: rest, idx, errors =>
    match awaitedOutcome (runMixed c value path) with
    | .ok _ =>
        let r := negationAsyncLoop mode value path rest (idx + 1) errors
        (r.1, idx :: r.2)
    | .error (.neg e) =>
        match mode with
        | .throw => (.error (.neg e), [idx])
        | .collect =>
            let r := negationAsyncLoop mode value path rest (idx + 1)
              (errors ++ [e])
            (r.1, idx :: r.2)
    | .error (.other f) => (.error (.other f), [idx])

/-- Embedding of `negationAsync(value, constraints, options)`: `.error` is a
rejected promise, `.ok` a resolved one. -/
def negationAsync {T : Type} (value : T)
    (constraints : List (MixedConstraint T))
    (options : ValidationOptions) : Except Thrown (NegationResult T) :=
  let mode := getMode options
  match (negationAsyncLoop mode value [] constraints 0 []).1 with
  | .error t => .error t
  | .ok errors =>
      .ok (match mode with
        | .collect => .errors errors
        | .throw => .value value)

/-- Ghost trace of `negationAsync`. -/
def negationAsyncTrace {T : Type} (value : T)
    (constraints : List (MixedConstraint T))
    (options : ValidationOptions) : List Nat :=
  (negationAsyncLoop (getMode options) value [] constraints 0 []).2

/- ### Object/schema async evaluator (`negateObjectAsync`) -/

/-- Throw-mode field loop of `negateObjectAsync`: each constraint's IIFE is
launched and its promise awaited immediately (`await validatePromise`), so
execution is strictly sequential; a caught `NegationError` is rethrown
(throw mode) and any other error is rethrown, either aborting the call. -/
def negateObjectAsyncThrowLoop {V : Type} (obj : String → V) :
    Schema (MixedConstraint V) → Nat →
    Except Thrown Unit × List (Nat × Nat)
  | [], _ => (.ok (), [])
  | (key, ocs) :: rest, fIdx =>
    let r := negationAsyncLoop .throw (obj key) [key] (ocs.getD []) 0 []
    let trF := r.2.map (fun j => (fIdx, j))
    match r.1 with
    | .error t => (.error t, trF)
    | .ok _ =>
        let r2 := negateObjectAsyncThrowLoop obj rest (fIdx + 1)
        (r2.1, trF ++ r2.2)

/-- What launching the IIFEs of `negateObjectAsync` in collect mode produces
before `Promise.all` runs: `pushes` are the errors pushed synchronously
during the launch loop (sync checks that threw a `NegationError`), in push
order; `pendings` are the settlement outcomes of the checks that returned a
promise, in launch order; `faults` are the non-`NegationError` values
rethrown synchronously inside an IIFE (its promise is already rejected when
`Promise.all` subscribes), in launch order. -/
structure LaunchOut where
  pushes : List NegationError
  pendings : List (Except Thrown Unit)
  faults : List String

/-- Concatenation of launch effects, in program order. -/
def LaunchOut.append (a b : LaunchOut) : LaunchOut :=
  ⟨a.pushes ++ b.pushes, a.pendings ++ b.pendings, a.faults ++ b.faults⟩

/-- Launching one collect-mode IIFE: it runs synchronously up to the first
`await`. A synchronous `NegationError` is pushed at once; a synchronous
other error rejects the IIFE's promise at once; a returned promise leaves a
pending continuation carrying the check's settlement outcome. -/
def launchOne {V : Type} (value : V) (path : List String)
    (c : MixedConstraint V) : LaunchOut :=
  match runMixed c value path with
  | .error (.neg e) => ⟨[e], [], []⟩
  | .error (.other f) => ⟨[], [], [f]⟩
  | .ok .retUnit => ⟨[], [], []⟩
  | .ok (.retPromise r) => ⟨[], [r], []⟩

/-- Launching all IIFEs of one field, in constraint order. -/
def launchField {V : Type} (value : V) (key : String) :
    List (MixedConstraint V) → LaunchOut
  | [] => ⟨[], [], []⟩
  | c :: rest => (launchOne value [key] c).append (launchField value key rest)

/-- Launching all IIFEs of the whole schema, in field order. -/
def launchAll {V : Type} (obj : String → V) :
    Schema (MixedConstraint V) → LaunchOut
  | [] => ⟨[], [], []⟩
  | (key, ocs) :: rest =>
      (launchField (obj key) key (ocs.getD [])).append (launchAll obj rest)

/-- Settling the pending continuations in the order given by the schedule:
each settlement either does nothing (check passed), pushes its
`NegationError` onto the shared `errors` array (collect mode), or rejects
its IIFE's promise with the fault. Returns the pushed errors and the faults,
each in settlement order. -/
def settleLoop (pendings : List (Except Thrown Unit)) :
    List Nat → List NegationError × List String
  | [] => ([], [])
  | i :: rest =>
    let r := settleLoop pendings rest
    match (pendings.get? i).getD (.ok ()) with
    | .ok _ => r
    | .error (.neg e) => (e :: r.1, r.2)
    | .error (.other f) => (r.1, f :: r.2)

/-- All (field index, constraint index) pairs of a schema, in declaration
order: in collect mode `negateObjectAsync` launches every one of them. -/
def allPairs {A : Type} : List (String × Option (List A)) → Nat →
    List (Nat × Nat)
  | [], _ => []
  | (_, ocs) :: rest, fIdx =>
      ((List.range (ocs.getD []).length).map (fun j => (fIdx, j))) ++
        allPairs rest (fIdx + 1)

/-- Embedding of `negateObjectAsync(obj, schema, options)`. In throw mode
each launched IIFE is awaited before the next constraint is launched, so the
schedule is irrelevant. In collect mode every IIFE is launched (the whole
loop runs synchronously), then `Promise.all` waits: if any IIFE's promise
rejected, the call rejects with the first rejection — launch-time rejections
(already settled when `Promise.all` subscribes, notified in launch order)
before settlement-time rejections (in completion order) — and otherwise the
call resolves with the errors pushed at launch time followed by the errors
pushed as pending checks settled, in the completion order given by
`sched`. The second component is the invocation trace. -/
def negateObjectAsync {V : Type} (obj : String → V)
    (schema : Schema (MixedConstraint V)) (options : ValidationOptions)
    (sched : List Nat) :
    Except Thrown (ObjResult V) × List (Nat × Nat) :=
  match getMode options with
  | .throw =>
    let r := negateObjectAsyncThrowLoop obj schema 0
    (match r.1 with
     | .error t => .error t
     | .ok _ => .ok (.obj obj), r.2)
  | .collect =>
    let L := launchAll obj schema
    let s := settleLoop L.pendings sched
    (match L.faults with
     | f :: _ => .error (.other f)
     | [] =>
       match s.2 with
       | f :: _ => .error (.other f)
       | [] => .ok (.errors (L.pushes ++ s.1)), allPairs schema 0)

/- ### Helper notions for the statements -/

/-- The violations a single-value call surfaces: the thrown `NegationError`
(throw mode) or the returned list (collect mode); a fault or a returned
value surfaces none. -/
def violationsOf {T : Type} (r : Except Thrown (NegationResult T)) :
    List NegationError :=
  match r with
  | .error (.neg e) => [e]
  | .error (.other _) => []
  | .ok (.value _) => []
  | .ok (.errors es) => es

/-- The violations an object call surfaces. -/
def objViolationsOf {V : Type} (r : Except Thrown (ObjResult V)) :
    List NegationError :=
  match r with
  | .error (.neg e) => [e]
  | .error (.other _) => []
  | .ok (.obj _) => []
  | .ok (.errors es) => es

/-- The run of a constraint is not an unexpected fault: it passes or raises
a `NegationError`. -/
def NoFault (r : Except Thrown Unit) : Prop :=
  ∀ f, r ≠ .error (.other f)

instance (r : Except Thrown Unit) : Decidable (NoFault r) := by
  unfold NoFault
  match r with
  | .ok _ => exact isTrue (fun f h => by cases h)
  | .error (.neg e) => exact isTrue (fun f h => by cases h)
  | .error (.other f) => exact isFalse (fun h => h f rfl)

/-- The violation, if any, that one constraint raises on a value at a path. -/
def violationAt {T : Type} (c : Constraint T) (value : T)
    (path : List String) : Option NegationError :=
  match runConstraint c value path with
  | .error (.neg e) => some e
  | _ => none

/-- The violations of a constraint list on one value at one path, one per
failing constraint, in declaration order. -/
def collectErrs {T : Type} (value : T) (path : List String)
    (cs : List (Constraint T)) : List NegationError :=
  cs.filterMap (fun c => violationAt c value path)

/-- The violations of a whole schema on an object, in (field order, then
per-field constraint order). -/
def schemaViolations {V : Type} (obj : String → V) :
    Schema (Constraint V) → List NegationError
  | [] => []
  | (key, ocs) :: rest =>
      collectErrs (obj key) [key] (ocs.getD []) ++ schemaViolations obj rest

/-- A constraint uses the path the evaluator supplies: every violation it
raises carries exactly that path. All built-ins do. -/
def UsesGivenPath {T : Type} (c : Constraint T) : Prop :=
  ∀ (v : T) (path : List String) (e : NegationError),
    runConstraint c v path = .error (.neg e) → e.path = path

/-- The run of a mixed constraint completes synchronously: the check does
not return a promise. -/
def SyncRun (m : Except Thrown MixedResult) : Prop :=
  ∀ r, m ≠ .ok (.retPromise r)

instance (m : Except Thrown MixedResult) : Decidable (SyncRun m) := by
  unfold SyncRun
  match m with
  | .ok .retUnit => exact isTrue (fun r h => by cases h)
  | .ok (.retPromise r0) => exact isFalse (fun h => h r0 rfl)
  | .error t => exact isTrue (fun r h => by cases h)

/-- Using a synchronous constraint inside a mixed constraint list (the
`MixedConstraint<T> = Constraint<T> | AsyncConstraint<T>` union): its check
returns `undefined`, never a promise. -/
def asMixed {T : Type} (c : Constraint T) : MixedConstraint T :=
  match c with
  | .fn check => .fn (fun v path => (check v path).map (fun _ => .retUnit))
  | .named validate name =>
      .named (fun v path => (validate v path).map (fun _ => .retUnit)) name

/-- Pointwise image of a schema's constraint lists. -/
def mapSchema {A B : Type} (f : A → B) (schema : List (String × Option (List A))) :
    List (String × Option (List B)) :=
  schema.map (fun p => (p.1, p.2.map (List.map f)))

end Negation

deriving instance DecidableEq for Except

namespace Negation

/- ### Lemmas about the synchronous constraint loop -/

theorem runConstraint_syncOf {T : Type} (c : MixedConstraint T) (v : T)
    (path : List String) :
    runConstraint (syncOf c) v path = awaitedOutcome (runMixed c v path) := by
  cases c <;> rfl

theorem negationLoop_all_pass {T : Type} (mode : Mode) (value : T)
    (path : List String) (cs : List (Constraint T)) (idx : Nat)
    (errors : List NegationError)
    (h : ∀ c ∈ cs, runConstraint c value path = .ok ()) :
    negationLoop mode value path cs idx errors
      = (.ok errors, List.range' idx cs.length) := by
  induction cs generalizing idx with
  | nil => rfl
  | cons c rest ih =>
      have hc := h c (List.mem_cons_self c rest)
      have ih' := ih (idx + 1) (fun c' hc' => h c' (List.mem_cons_of_mem _ hc'))
      simp [negationLoop, hc, ih', List.range'_succ]

theorem negationLoop_collect_noFault {T : Type} (value : T)
    (path : List String) (cs : List (Constraint T)) (idx : Nat)
    (errors : List NegationError)
    (h : ∀ c ∈ cs, NoFault (runConstraint c value path)) :
    negationLoop .collect value path cs idx errors
      = (.ok (errors ++ collectErrs value path cs), List.range' idx cs.length) := by
  induction cs generalizing idx errors with
  | nil => simp [negationLoop, collectErrs]
  | cons c rest ih =>
      have hc := h c (List.mem_cons_self c rest)
      have hrest := fun c' hc' => h c' (List.mem_cons_of_mem c hc')
      match hrun : runConstraint c value path with
      | .ok _ =>
          simp [negationLoop, hrun, ih (idx + 1) errors hrest, collectErrs,
            violationAt, hrun, List.range'_succ]
      | .error (.neg e) =>
          simp [negationLoop, hrun, ih (idx + 1) (errors ++ [e]) hrest,
            collectErrs, violationAt, hrun, List.range'_succ]
      | .error (.other f) => exact absurd hrun (hc f)

theorem negationLoop_throw_firstFail {T : Type} (value : T)
    (path : List String) (pre post : List (Constraint T)) (c : Constraint T)
    (e : NegationError) (idx : Nat) (errors : List NegationError)
    (hpre : ∀ c' ∈ pre, runConstraint c' value path = .ok ())
    (hc : runConstraint c value path = .error (.neg e)) :
    negationLoop .throw value path (pre ++ c :: post) idx errors
      = (.error (.neg e), List.range' idx (pre.length + 1)) := by
  induction pre generalizing idx with
  | nil => simp [negationLoop, hc, List.range'_succ]
  | cons c' rest ih =>
      have h1 := hpre c' (List.mem_cons_self c' rest)
      have ih' := ih (idx + 1) (fun c'' hc'' => hpre c'' (List.mem_cons_of_mem _ hc''))
      simp [negationLoop, h1, ih', List.range'_succ]

theorem negationLoop_collect_firstFault {T : Type} (value : T)
    (path : List String) (pre post : List (Constraint T)) (c : Constraint T)
    (f : String) (idx : Nat) (errors : List NegationError)
    (hpre : ∀ c' ∈ pre, NoFault (runConstraint c' value path))
    (hc : runConstraint c value path = .error (.other f)) :
    (negationLoop .collect value path (pre ++ c :: post) idx errors).1
      = .error (.other f)
    ∧ (negationLoop .collect value path (pre ++ c :: post) idx errors).2
      = List.range' idx (pre.length + 1) := by
  induction pre generalizing idx errors with
  | nil => simp [negationLoop, hc, List.range'_succ]
  | cons c' rest ih =>
      have h1 := hpre c' (List.mem_cons_self c' rest)
      have hrest := fun c'' hc'' => hpre c'' (List.mem_cons_of_mem c' hc'')
      match hrun : runConstraint c' value path with
      | .ok _ =>
          have ih' := ih (idx + 1) errors hrest
          simp [negationLoop, hrun, ih'.1, ih'.2, List.range'_succ]
      | .error (.neg e') =>
          have ih' := ih (idx + 1) (errors ++ [e']) hrest
          simp [negationLoop, hrun, ih'.1, ih'.2, List.range'_succ]
      | .error (.other f') => exact absurd hrun (h1 f')

/-- Paths of errors produced by the loop: a thrown `NegationError` carries
the supplied path, and every collected error is either inherited from the
accumulator or carries the supplied path. -/
theorem negationLoop_paths {T : Type} (mode : Mode) (value : T)
    (path : List String) (cs : List (Constraint T)) (idx : Nat)
    (errors : List NegationError)
    (h : ∀ c ∈ cs, UsesGivenPath c) :
    (∀ e, (negationLoop mode value path cs idx errors).1 = .error (.neg e) →
      e.path = path)
    ∧ (∀ es, (negationLoop mode value path cs idx errors).1 = .ok es →
      ∀ e ∈ es, e ∈ errors ∨ e.path = path) := by
  induction cs generalizing idx errors with
  | nil =>
      refine ⟨fun e he => by simp [negationLoop] at he,
        fun es hes e hmem => ?_⟩
      simp [negationLoop] at hes
      exact Or.inl (hes ▸ hmem)
  | cons c rest ih =>
      have hc := h c (List.mem_cons_self c rest)
      have hrest := fun c' hc' => h c' (List.mem_cons_of_mem c hc')
      match hrun : runConstraint c value path with
      | .ok _ =>
          have ih' := ih (idx + 1) errors hrest
          constructor
          · intro e he
            simp only [negationLoop, hrun] at he
            exact ih'.1 e he
          · intro es hes e hmem
            simp only [negationLoop, hrun] at hes
            exact ih'.2 es hes e hmem
      | .error (.neg e0) =>
          have he0 : e0.path = path := hc value path e0 hrun
          match mode with
          | .throw =>
              constructor
              · intro e he
                simp only [negationLoop, hrun] at he
                cases he
                exact he0
              · intro es hes
                simp [negationLoop, hrun] at hes
          | .collect =>
              have ih' := ih (idx + 1) (errors ++ [e0]) hrest
              constructor
              · intro e he
                simp only [negationLoop, hrun] at he
                exact ih'.1 e he
              · intro es hes e hmem
                simp only [negationLoop, hrun] at hes
                rcases ih'.2 es hes e hmem with hin | hp
                · rcases List.mem_append.mp hin with hin' | hin'
                  · exact Or.inl hin'
                  · exact Or.inr (by
                      rcases List.mem_singleton.mp hin' with rfl
                      exact he0)
                · exact Or.inr hp
      | .error (.other f) =>
          constructor
          · intro e he
            simp [negationLoop, hrun] at he
          · intro es hes
            simp [negationLoop, hrun] at hes

/- ### Lemmas about the synchronous object loop -/

theorem negateObjectLoop_collect_noFault {V : Type} (obj : String → V)
    (schema : Schema (Constraint V)) (fIdx : Nat)
    (errors : List NegationError)
    (h : ∀ p ∈ schema, ∀ c ∈ p.2.getD [], NoFault (runConstraint c (obj p.1) [p.1])) :
    negateObjectLoop .collect obj schema fIdx errors
      = (.ok (errors ++ schemaViolations obj schema), allPairs schema fIdx) := by
  induction schema generalizing fIdx errors with
  | nil => simp [negateObjectLoop, schemaViolations, allPairs]
  | cons p rest ih =>
      obtain ⟨key, ocs⟩ := p
      have hf := h (key, ocs) (List.mem_cons_self _ rest)
      have hrest := fun p' hp' => h p' (List.mem_cons_of_mem _ hp')
      have hloop := negationLoop_collect_noFault (obj key) [key] (ocs.getD []) 0
        errors hf
      have ih' := ih (fIdx + 1) (errors ++ collectErrs (obj key) [key] (ocs.getD []))
        hrest
      simp [negateObjectLoop, hloop, ih', schemaViolations, allPairs,
        List.range_eq_range', List.append_assoc]

theorem negateObjectLoop_paths {V : Type} (mode : Mode) (obj : String → V)
    (schema : Schema (Constraint V)) (fIdx : Nat)
    (errors : List NegationError)
    (h : ∀ p ∈ schema, ∀ c ∈ p.2.getD [], UsesGivenPath c) :
    (∀ e, (negateObjectLoop mode obj schema fIdx errors).1 = .error (.neg e) →
      ∃ p ∈ schema, e.path = [p.1])
    ∧ (∀ es, (negateObjectLoop mode obj schema fIdx errors).1 = .ok es →
      ∀ e ∈ es, e ∈ errors ∨ ∃ p ∈ schema, e.path = [p.1]) := by
  induction schema generalizing fIdx errors with
  | nil =>
      refine ⟨fun e he => by simp [negateObjectLoop] at he,
        fun es hes e hmem => ?_⟩
      simp [negateObjectLoop] at hes
      exact Or.inl (hes ▸ hmem)
  | cons p rest ih =>
      obtain ⟨key, ocs⟩ := p
      have hf := h (key, ocs) (List.mem_cons_self _ rest)
      have hrest := fun p' hp' => h p' (List.mem_cons_of_mem _ hp')
      have hfield := negationLoop_paths mode (obj key) [key] (ocs.getD []) 0
        errors hf
      match hrun : (negationLoop mode (obj key) [key] (ocs.getD []) 0 errors).1 with
      | .error (.neg e0) =>
          have he0 : e0.path = [key] := hfield.1 e0 hrun
          constructor
          · intro e he
            simp only [negateObjectLoop, hrun] at he
            cases he
            exact ⟨(key, ocs), List.mem_cons_self _ rest, he0⟩
          · intro es hes
            simp [negateObjectLoop, hrun] at hes
      | .error (.other f) =>
          constructor
          · intro e he
            simp [negateObjectLoop, hrun] at he
          · intro es hes
            simp [negateObjectLoop, hrun] at hes
      | .ok errors2 =>
          have hmid := hfield.2 errors2 hrun
          have ih' := ih (fIdx + 1) errors2 hrest
          constructor
          · intro e he
            simp only [negateObjectLoop, hrun] at he
            rcases ih'.1 e he with ⟨p, hp, hpath⟩
            exact ⟨p, List.mem_cons_of_mem _ hp, hpath⟩
          · intro es hes e hmem
            simp only [negateObjectLoop, hrun] at hes
            rcases ih'.2 es hes e hmem with hin | ⟨p, hp, hpath⟩
            · rcases hmid e hin with hin' | hpath'
              · exact Or.inl hin'
              · exact Or.inr ⟨(key, ocs), List.mem_cons_self _ rest, hpath'⟩
            · exact Or.inr ⟨p, List.mem_cons_of_mem _ hp, hpath⟩

/- ### Lemmas about the mixed (async) loops -/

theorem negationAsyncLoop_eq {T : Type} (mode : Mode) (value : T)
    (path : List String) (cs : List (MixedConstraint T)) (idx : Nat)
    (errors : List NegationError) :
    negationAsyncLoop mode value path cs idx errors
      = negationLoop mode value path (cs.map syncOf) idx errors := by
  induction cs generalizing idx errors with
  | nil => rfl
  | cons c rest ih =>
      have hrc := runConstraint_syncOf c value path
      match hrun : awaitedOutcome (runMixed c value path) with
      | .ok _ =>
          simp [negationAsyncLoop, negationLoop, hrun, hrc, ih]
      | .error (.neg e) =>
          match mode with
          | .throw => simp [negationAsyncLoop, negationLoop, hrun, hrc]
          | .collect => simp [negationAsyncLoop, negationLoop, hrun, hrc, ih]
      | .error (.other f) =>
          simp [negationAsyncLoop, negationLoop, hrun, hrc]

theorem negationAsyncLoop_all_pass {T : Type} (mode : Mode) (value : T)
    (path : List String) (cs : List (MixedConstraint T)) (idx : Nat)
    (errors : List NegationError)
    (h : ∀ c ∈ cs, awaitedOutcome (runMixed c value path) = .ok ()) :
    negationAsyncLoop mode value path cs idx errors
      = (.ok errors, List.range' idx cs.length) := by
  rw [negationAsyncLoop_eq]
  have := negationLoop_all_pass mode value path (cs.map syncOf) idx errors
    (fun c' hc' => by
      rcases List.mem_map.mp hc' with ⟨c, hc, rfl⟩
      rw [runConstraint_syncOf]
      exact h c hc)
  simpa using this

theorem negationAsyncLoop_throw_firstFail {T : Type} (value : T)
    (path : List String) (pre post : List (MixedConstraint T))
    (c : MixedConstraint T) (e : NegationError) (idx : Nat)
    (errors : List NegationError)
    (hpre : ∀ c' ∈ pre, awaitedOutcome (runMixed c' value path) = .ok ())
    (hc : awaitedOutcome (runMixed c value path) = .error (.neg e)) :
    negationAsyncLoop .throw value path (pre ++ c :: post) idx errors
      = (.error (.neg e), List.range' idx (pre.length + 1)) := by
  rw [negationAsyncLoop_eq]
  have hmap : (pre ++ c :: post).map syncOf
      = pre.map syncOf ++ syncOf c :: post.map syncOf := by simp
  rw [hmap]
  have := negationLoop_throw_firstFail value path (pre.map syncOf)
    (post.map syncOf) (syncOf c) e idx errors
    (fun c' hc' => by
      rcases List.mem_map.mp hc' with ⟨c'', hc'', rfl⟩
      rw [runConstraint_syncOf]
      exact hpre c'' hc'')
    (by rw [runConstraint_syncOf]; exact hc)
  simpa using this

/- ### Lemmas about the async object evaluator -/

theorem negateObjectAsyncThrowLoop_firstFail {V : Type} (obj : String → V)
    (pre post : Schema (MixedConstraint V)) (k : String)
    (cpre cpost : List (MixedConstraint V)) (c : MixedConstraint V)
    (e : NegationError) (fIdx : Nat)
    (hpre : ∀ p ∈ pre, ∀ c' ∈ p.2.getD [],
      awaitedOutcome (runMixed c' (obj p.1) [p.1]) = .ok ())
    (hcpre : ∀ c' ∈ cpre, awaitedOutcome (runMixed c' (obj k) [k]) = .ok ())
    (hc : awaitedOutcome (runMixed c (obj k) [k]) = .error (.neg e)) :
    (negateObjectAsyncThrowLoop obj
      (pre ++ (k, some (cpre ++ c :: cpost)) :: post) fIdx).1 = .error (.neg e)
    ∧ ∀ q ∈ (negateObjectAsyncThrowLoop obj
        (pre ++ (k, some (cpre ++ c :: cpost)) :: post) fIdx).2,
      q.1 ≤ fIdx + pre.length := by
  induction pre generalizing fIdx with
  | nil =>
      have hloop := negationAsyncLoop_throw_firstFail (obj k) [k] cpre cpost c e
        0 [] hcpre hc
      constructor
      · simp [negateObjectAsyncThrowLoop, hloop]
      · intro q hq
        simp [negateObjectAsyncThrowLoop, hloop] at hq
        rcases hq with ⟨j, _, hj⟩
        simp [← hj]
  | cons p rest ih =>
      obtain ⟨key, ocs⟩ := p
      have hf := hpre (key, ocs) (List.mem_cons_self _ rest)
      have hrest := fun p' hp' => hpre p' (List.mem_cons_of_mem _ hp')
      have hloop := negationAsyncLoop_all_pass .throw (obj key) [key]
        (ocs.getD []) 0 [] hf
      have ih' := ih (fIdx + 1) hrest
      constructor
      · simp only [List.cons_append, negateObjectAsyncThrowLoop, hloop]
        exact ih'.1
      · intro q hq
        simp only [List.cons_append, negateObjectAsyncThrowLoop, hloop,
          List.mem_append, List.mem_map] at hq
        rcases hq with ⟨j, _, hj⟩ | hq
        · rw [← hj]
          exact Nat.le_add_right fIdx _
        · have := ih'.2 q hq
          simp only [List.length_cons]
          omega

theorem LaunchOut.append_assoc (a b c : LaunchOut) :
    (a.append b).append c = a.append (b.append c) := by
  simp [LaunchOut.append, List.append_assoc]

theorem launchOne_syncNoFault {V : Type} (v : V) (path : List String)
    (c : MixedConstraint V) (hs : SyncRun (runMixed c v path))
    (hnf : NoFault (awaitedOutcome (runMixed c v path))) :
    launchOne v path c = ⟨(violationAt (syncOf c) v path).toList, [], []⟩ := by
  match hrun : runMixed c v path with
  | .error (.neg e) =>
      simp [launchOne, hrun, violationAt, runConstraint_syncOf, awaitedOutcome]
  | .error (.other f) =>
      exact absurd (by simp [awaitedOutcome, hrun]) (hnf f)
  | .ok .retUnit =>
      simp [launchOne, hrun, violationAt, runConstraint_syncOf, awaitedOutcome]
  | .ok (.retPromise r) => exact absurd hrun (hs r)

theorem collectErrs_cons {T : Type} (value : T) (path : List String)
    (c : Constraint T) (cs : List (Constraint T)) :
    collectErrs value path (c :: cs)
      = (violationAt c value path).toList ++ collectErrs value path cs := by
  cases h : violationAt c value path <;>
    simp [collectErrs, List.filterMap_cons, h]

/-- `schema[key] || []` commutes with mapping over the constraint lists. -/
theorem getD_map {A B : Type} (f : A → B) (ocs : Option (List A)) :
    (Option.map (List.map f) ocs).getD [] = List.map f (ocs.getD []) := by
  cases ocs <;> rfl

theorem launchField_syncNoFault {V : Type} (v : V) (key : String)
    (cs : List (MixedConstraint V))
    (hs : ∀ c ∈ cs, SyncRun (runMixed c v [key]))
    (hnf : ∀ c ∈ cs, NoFault (awaitedOutcome (runMixed c v [key]))) :
    launchField v key cs = ⟨collectErrs v [key] (cs.map syncOf), [], []⟩ := by
  induction cs with
  | nil => rfl
  | cons c rest ih =>
      have h1 := launchOne_syncNoFault v [key] c
        (hs c (List.mem_cons_self c rest)) (hnf c (List.mem_cons_self c rest))
      have ih' := ih (fun c' hc' => hs c' (List.mem_cons_of_mem c hc'))
        (fun c' hc' => hnf c' (List.mem_cons_of_mem c hc'))
      simp [launchField, h1, ih', LaunchOut.append, List.map_cons,
        collectErrs_cons]

theorem launchAll_syncNoFault {V : Type} (obj : String → V)
    (schema : Schema (MixedConstraint V))
    (hs : ∀ p ∈ schema, ∀ c ∈ p.2.getD [], SyncRun (runMixed c (obj p.1) [p.1]))
    (hnf : ∀ p ∈ schema, ∀ c ∈ p.2.getD [],
      NoFault (awaitedOutcome (runMixed c (obj p.1) [p.1]))) :
    launchAll obj schema
      = ⟨schemaViolations obj (mapSchema syncOf schema), [], []⟩ := by
  induction schema with
  | nil => rfl
  | cons p rest ih =>
      obtain ⟨key, ocs⟩ := p
      have h1 := launchField_syncNoFault (obj key) key (ocs.getD [])
        (hs (key, ocs) (List.mem_cons_self _ rest))
        (hnf (key, ocs) (List.mem_cons_self _ rest))
      have ih' := ih (fun p' hp' => hs p' (List.mem_cons_of_mem _ hp'))
        (fun p' hp' => hnf p' (List.mem_cons_of_mem _ hp'))
      simp [launchAll, h1, ih', LaunchOut.append, mapSchema,
        schemaViolations, getD_map]

theorem settleLoop_nil (sched : List Nat) : settleLoop [] sched = ([], []) := by
  induction sched with
  | nil => rfl
  | cons i rest ih => simp [settleLoop, ih, List.get?]

/- ### First-fault lemmas: a non-`NegationError` aborts the sequential
loops in either mode -/

theorem path_of_error_eq {path : List String} {msg name : String}
    {e : NegationError}
    (h : (Except.error (Thrown.neg ⟨path, msg, name⟩) : Except Thrown Unit)
      = .error (.neg e)) : e.path = path := by
  injection h with h1
  injection h1 with h2
  rw [← h2]

theorem usesGivenPath_notNull : UsesGivenPath notNull := by
  intro v path e h
  cases v with
  | vNull => exact path_of_error_eq h
  | vUndef => exact path_of_error_eq h
  | vStr s => exact absurd h (by simp [runConstraint, notNull])
  | vNum n => exact absurd h (by simp [runConstraint, notNull])

theorem usesGivenPath_notEmpty : UsesGivenPath notEmpty := by
  intro v path e h
  simp only [runConstraint, notEmpty] at h
  split at h
  · exact path_of_error_eq h
  · exact absurd h (by simp)

theorem usesGivenPath_notNegative : UsesGivenPath notNegative := by
  intro v path e h
  simp only [runConstraint, notNegative] at h
  split at h
  · exact path_of_error_eq h
  · exact absurd h (by simp)

theorem usesGivenPath_notLongerThan (maxLength : Int) :
    UsesGivenPath (notLongerThan maxLength) := by
  intro v path e h
  simp only [runConstraint, notLongerThan] at h
  split at h
  · exact path_of_error_eq h
  · exact absurd h (by simp)

theorem usesGivenPath_notShorterThan (minLength : Int) :
    UsesGivenPath (notShorterThan minLength) := by
  intro v path e h
  simp only [runConstraint, notShorterThan] at h
  split at h
  · exact path_of_error_eq h
  · exact absurd h (by simp)

theorem usesGivenPath_notGreaterThan (max : Int) :
    UsesGivenPath (notGreaterThan max) := by
  intro v path e h
  simp only [runConstraint, notGreaterThan] at h
  split at h
  · exact path_of_error_eq h
  · exact absurd h (by simp)

theorem usesGivenPath_notLessThan (min : Int) :
    UsesGivenPath (notLessThan min) := by
  intro v path e h
  simp only [runConstraint, notLessThan] at h
  split at h
  · exact path_of_error_eq h
  · exact absurd h (by simp)

/- ### The claims -/

/-- C1: in fail-fast (`throw`) mode, when constraint `i` (= `pre.length`) is
the first failing constraint on the value (every constraint before it
passes) and raises `e`, `negation` raises exactly `e`; the invocation trace
is exactly the indices `0 .. i`, so no constraint after index `i` is ever
invoked. -/
theorem negation_throw_first_failure {T : Type} (value : T)
    (pre post : List (Constraint T)) (c : Constraint T) (e : NegationError)
    (hpre : ∀ c' ∈ pre, runConstraint c' value [] = .ok ())
    (hc : runConstraint c value [] = .error (.neg e)) :
    negation value (pre ++ c :: post) throwOpts = .error (.neg e)
    ∧ negationTrace value (pre ++ c :: post) throwOpts
        = List.range' 0 (pre.length + 1)
    ∧ ∀ j ∈ negationTrace value (pre ++ c :: post) throwOpts,
        j ≤ pre.length := by
  have h := negationLoop_throw_firstFail value [] pre post c e 0 [] hpre hc
  have hm : getMode throwOpts = Mode.throw := rfl
  refine ⟨?_, ?_, ?_⟩
  · simp [negation, hm, h]
  · simp [negationTrace, hm, h]
  · intro j hj
    simp only [negationTrace, hm, h, List.mem_range'] at hj
    omega

theorem negation_throw_first_failure_witness :
    negation (-3 : Int) ([notLessThan (-5)] ++ notNegative :: [notGreaterThan 100])
        throwOpts
      = .error (.neg ⟨[], "Number must not be negative", "notNegative"⟩)
    ∧ negationTrace (-3 : Int)
        ([notLessThan (-5)] ++ notNegative :: [notGreaterThan 100]) throwOpts
      = List.range' 0 ([notLessThan (-5)].length + 1)
    ∧ ∀ j ∈ negationTrace (-3 : Int)
        ([notLessThan (-5)] ++ notNegative :: [notGreaterThan 100]) throwOpts,
        j ≤ [notLessThan (-5)].length :=
  negation_throw_first_failure (-3 : Int) [notLessThan (-5)] [notGreaterThan 100]
    notNegative ⟨[], "Number must not be negative", "notNegative"⟩
    (by
      intro c' hc'
      rw [List.mem_singleton] at hc'
      subst hc'
      rfl)
    (by rfl)

/-- C2: in collect mode, on constraints that never raise an unexpected
fault, the single-value evaluator returns one violation per failing
constraint in the declaration order of the constraint list, the object
evaluator returns the violations in (schema field order, then per-field
constraint order), both complete normally, and neither terminates early:
the traces show every constraint of every field being invoked. -/
theorem collect_all_declaration_order {T V : Type} (value : T)
    (cs : List (Constraint T)) (obj : String → V)
    (schema : Schema (Constraint V))
    (hv : ∀ c ∈ cs, NoFault (runConstraint c value []))
    (ho : ∀ p ∈ schema, ∀ c ∈ p.2.getD [],
      NoFault (runConstraint c (obj p.1) [p.1])) :
    negation value cs collectOpts = .ok (.errors (collectErrs value [] cs))
    ∧ negationTrace value cs collectOpts = List.range' 0 cs.length
    ∧ negateObject obj schema collectOpts
        = .ok (.errors (schemaViolations obj schema))
    ∧ negateObjectTrace obj schema collectOpts = allPairs schema 0 := by
  have h := negationLoop_collect_noFault value [] cs 0 [] hv
  have hO := negateObjectLoop_collect_noFault obj schema 0 [] ho
  have hm : getMode collectOpts = Mode.collect := rfl
  refine ⟨?_, ?_, ?_, ?_⟩
  · simp [negation, hm, h]
  · simp [negationTrace, hm, h]
  · simp [negateObject, hm, hO]
  · simp [negateObjectTrace, hm, hO]

theorem collect_all_declaration_order_witness :
    negation (-3 : Int) [notNegative, notGreaterThan 100, notLessThan 0]
        collectOpts
      = .ok (.errors (collectErrs (-3 : Int) []
          [notNegative, notGreaterThan 100, notLessThan 0]))
    ∧ negationTrace (-3 : Int) [notNegative, notGreaterThan 100, notLessThan 0]
        collectOpts
      = List.range' 0 [notNegative, notGreaterThan 100, notLessThan 0].length
    ∧ negateObject (fun _ => Val.vNull)
        [("id", some [notNull]), ("name", some [notNull])] collectOpts
      = .ok (.errors (schemaViolations (fun _ => Val.vNull)
          [("id", some [notNull]), ("name", some [notNull])]))
    ∧ negateObjectTrace (fun _ => Val.vNull)
        [("id", some [notNull]), ("name", some [notNull])] collectOpts
      = allPairs [("id", some [notNull]), ("name", some [notNull])] 0 :=
  collect_all_declaration_order (-3 : Int)
    [notNegative, notGreaterThan 100, notLessThan 0] (fun _ => Val.vNull)
    [("id", some [notNull]), ("name", some [notNull])]
    (by
      intro c hc
      simp only [List.mem_cons, List.not_mem_nil, or_false] at hc
      rcases hc with rfl | rfl | rfl <;> decide)
    (by
      intro p hp
      simp only [List.mem_cons, List.not_mem_nil, or_false] at hp
      rcases hp with rfl | rfl <;>
        · intro c hc
          simp only [Option.getD_some, List.mem_cons, List.not_mem_nil,
            or_false] at hc
          subst hc
          decide)

/-- C7: when every constraint passes on the value, `negation` returns the
value itself in throw mode and an empty violation sequence in collect
mode. -/
theorem all_pass_returns_value_and_empty {T : Type} (value : T)
    (cs : List (Constraint T))
    (h : ∀ c ∈ cs, runConstraint c value [] = .ok ()) :
    negation value cs throwOpts = .ok (.value value)
    ∧ negation value cs collectOpts = .ok (.errors []) := by
  constructor
  · have hl := negationLoop_all_pass Mode.throw value [] cs 0 [] h
    simp [negation, show getMode throwOpts = Mode.throw from rfl, hl]
  · have hl := negationLoop_all_pass Mode.collect value [] cs 0 [] h
    simp [negation, show getMode collectOpts = Mode.collect from rfl, hl]

/-- C8: the async single-value evaluator is strictly sequential and agrees
with the synchronous evaluator on the corresponding synchronous constraints
(`syncOf` — same outcome per check): same outcome (value, thrown error, or
violations in the same discovery order) and the same invocation trace, in
both modes. -/
theorem negationAsync_refines_negation {T : Type} (value : T)
    (cs : List (MixedConstraint T)) (options : ValidationOptions) :
    negationAsync value cs options = negation value (cs.map syncOf) options
    ∧ negationAsyncTrace value cs options
        = negationTrace value (cs.map syncOf) options := by
  constructor
  · simp [negationAsync, negation, negationAsyncLoop_eq]
  · simp [negationAsyncTrace, negationTrace, negationAsyncLoop_eq]

/- ### Lemmas: an `undefined` constraint list behaves as an empty one -/

theorem negateObjectLoop_noneEmpty {V : Type} (mode : Mode)
    (obj : String → V) (pre post : Schema (Constraint V)) (k : String)
    (fIdx : Nat) (errors : List NegationError) :
    negateObjectLoop mode obj (pre ++ (k, none) :: post) fIdx errors
      = negateObjectLoop mode obj (pre ++ (k, some []) :: post) fIdx errors := by
  induction pre generalizing fIdx errors with
  | nil => rfl
  | cons p rest ih =>
      obtain ⟨key, ocs⟩ := p
      simp only [List.cons_append, negateObjectLoop]
      cases hrun : (negationLoop mode (obj key) [key] (ocs.getD []) 0 errors).1 with
      | error t => simp [hrun]
      | ok errors2 => simp [hrun, ih]

theorem negateObjectAsyncThrowLoop_noneEmpty {V : Type} (obj : String → V)
    (pre post : Schema (MixedConstraint V)) (k : String) (fIdx : Nat) :
    negateObjectAsyncThrowLoop obj (pre ++ (k, none) :: post) fIdx
      = negateObjectAsyncThrowLoop obj (pre ++ (k, some []) :: post) fIdx := by
  induction pre generalizing fIdx with
  | nil => rfl
  | cons p rest ih =>
      obtain ⟨key, ocs⟩ := p
      simp only [List.cons_append, negateObjectAsyncThrowLoop]
      cases hrun : (negationAsyncLoop .throw (obj key) [key] (ocs.getD []) 0 []).1 with
      | error t => simp [hrun]
      | ok u => simp [hrun, ih]

theorem launchAll_noneEmpty {V : Type} (obj : String → V)
    (pre post : Schema (MixedConstraint V)) (k : String) :
    launchAll obj (pre ++ (k, none) :: post)
      = launchAll obj (pre ++ (k, some []) :: post) := by
  induction pre with
  | nil => rfl
  | cons p rest ih =>
      obtain ⟨key, ocs⟩ := p
      show (launchField (obj key) key (ocs.getD [])).append
          (launchAll obj (rest ++ (k, none) :: post)) = _
      rw [ih]
      rfl

theorem allPairs_noneEmpty {A : Type} (pre post : List (String × Option (List A)))
    (k : String) (fIdx : Nat) :
    allPairs (pre ++ (k, none) :: post) fIdx
      = allPairs (pre ++ (k, (some [] : Option (List A))) :: post) fIdx := by
  induction pre generalizing fIdx with
  | nil => rfl
  | cons p rest ih =>
      obtain ⟨key, ocs⟩ := p
      show ((List.range (ocs.getD []).length).map (fun j => (fIdx, j))) ++
          allPairs (rest ++ (k, none) :: post) (fIdx + 1) = _
      rw [ih]
      rfl

/-- C10: in both object evaluators, a schema key whose constraint list is
`undefined` behaves exactly like one with an empty constraint list: same
result, same invocations, in every mode and under every completion
schedule. -/
theorem undefined_constraints_as_empty {V : Type} (obj : String → V)
    (pre post : Schema (Constraint V)) (preM postM : Schema (MixedConstraint V))
    (k kM : String) (options : ValidationOptions) (sched : List Nat) :
    negateObject obj (pre ++ (k, none) :: post) options
      = negateObject obj (pre ++ (k, some []) :: post) options
    ∧ negateObjectTrace obj (pre ++ (k, none) :: post) options
      = negateObjectTrace obj (pre ++ (k, some []) :: post) options
    ∧ negateObjectAsync obj (preM ++ (kM, none) :: postM) options sched
      = negateObjectAsync obj (preM ++ (kM, some []) :: postM) options sched := by
  have h1 := negateObjectLoop_noneEmpty (getMode options) obj pre post k 0 []
  refine ⟨?_, ?_, ?_⟩
  · simp [negateObject, h1]
  · simp [negateObjectTrace, h1]
  · cases hm : getMode options with
    | throw =>
        have h2 := negateObjectAsyncThrowLoop_noneEmpty obj preM postM kM 0
        simp [negateObjectAsync, hm, h2]
    | collect =>
        have h3 := launchAll_noneEmpty obj preM postM kM
        have h4 := allPairs_noneEmpty preM postM kM 0
        simp [negateObjectAsync, hm, h3, h4]

theorem all_pass_returns_value_and_empty_witness :
    negation ("hi" : String) [notShorterThan 1, notLongerThan 5] throwOpts
      = .ok (.value "hi")
    ∧ negation ("hi" : String) [notShorterThan 1, notLongerThan 5] collectOpts
      = .ok (.errors []) :=
  all_pass_returns_value_and_empty "hi" [notShorterThan 1, notLongerThan 5]
    (by
      intro c hc
      simp only [List.mem_cons, List.not_mem_nil, or_false] at hc
      rcases hc with rfl | rfl <;> rfl)

/-- C6: with constraints that use the path the evaluator supplies (as every
built-in does, `usesGivenPath_*`), every violation surfaced by a
single-value evaluation has the empty path (length 0), and every violation
surfaced by an object evaluation has a single-segment path that is one of
the schema's field names (length 1). -/
theorem builtin_violation_path_lengths {T V : Type} (value : T)
    (cs : List (Constraint T)) (options : ValidationOptions)
    (obj : String → V) (schema : Schema (Constraint V))
    (optionsO : ValidationOptions)
    (hcs : ∀ c ∈ cs, UsesGivenPath c)
    (hschema : ∀ p ∈ schema, ∀ c ∈ p.2.getD [], UsesGivenPath c) :
    (∀ e ∈ violationsOf (negation value cs options), e.path = [])
    ∧ (∀ e ∈ objViolationsOf (negateObject obj schema optionsO),
        ∃ p ∈ schema, e.path = [p.1]) := by
  constructor
  · intro e he
    have hp := negationLoop_paths (getMode options) value [] cs 0 [] hcs
    cases hrun : (negationLoop (getMode options) value [] cs 0 []).1 with
    | error t =>
        cases t with
        | neg e0 =>
            have hres : negation value cs options = .error (.neg e0) := by
              simp [negation, hrun]
            rw [hres] at he
            simp only [violationsOf, List.mem_singleton] at he
            exact he ▸ hp.1 e0 hrun
        | other f =>
            have hres : negation value cs options = .error (.other f) := by
              simp [negation, hrun]
            rw [hres] at he
            simp [violationsOf] at he
    | ok errors =>
        cases hm : getMode options with
        | throw =>
            rw [hm] at hrun
            have hres : negation value cs options = .ok (.value value) := by
              simp [negation, hm, hrun]
            rw [hres] at he
            simp [violationsOf] at he
        | collect =>
            rw [hm] at hrun hp
            have hres : negation value cs options = .ok (.errors errors) := by
              simp [negation, hm, hrun]
            rw [hres] at he
            simp only [violationsOf] at he
            rcases hp.2 errors hrun e he with hin | hpath
            · exact absurd hin (List.not_mem_nil e)
            · exact hpath
  · intro e he
    have hp := negateObjectLoop_paths (getMode optionsO) obj schema 0 [] hschema
    cases hrun : (negateObjectLoop (getMode optionsO) obj schema 0 []).1 with
    | error t =>
        cases t with
        | neg e0 =>
            have hres : negateObject obj schema optionsO = .error (.neg e0) := by
              simp [negateObject, hrun]
            rw [hres] at he
            simp only [objViolationsOf, List.mem_singleton] at he
            exact he ▸ hp.1 e0 hrun
        | other f =>
            have hres : negateObject obj schema optionsO = .error (.other f) := by
              simp [negateObject, hrun]
            rw [hres] at he
            simp [objViolationsOf] at he
    | ok errors =>
        cases hm : getMode optionsO with
        | throw =>
            rw [hm] at hrun
            have hres : negateObject obj schema optionsO = .ok (.obj obj) := by
              simp [negateObject, hm, hrun]
            rw [hres] at he
            simp [objViolationsOf] at he
        | collect =>
            rw [hm] at hrun hp
            have hres : negateObject obj schema optionsO = .ok (.errors errors) := by
              simp [negateObject, hm, hrun]
            rw [hres] at he
            simp only [objViolationsOf] at he
            rcases hp.2 errors hrun e he with hin | hpath
            · exact absurd hin (List.not_mem_nil e)
            · exact hpath

theorem builtin_violation_path_lengths_witness :
    (∀ e ∈ violationsOf (negation Val.vNull [notNull] collectOpts),
      e.path = [])
    ∧ (∀ e ∈ objViolationsOf (negateObject (fun _ => Val.vNull)
        [("name", some [notNull])] throwOpts),
      ∃ p ∈ [("name", (some [notNull] : Option (List (Constraint Val))))],
        e.path = [p.1]) :=
  builtin_violation_path_lengths Val.vNull [notNull] collectOpts
    (fun _ => Val.vNull) [("name", some [notNull])] throwOpts
    (by
      intro c hc
      simp only [List.mem_cons, List.not_mem_nil, or_false] at hc
      subst hc
      exact usesGivenPath_notNull)
    (by
      intro p hp
      simp only [List.mem_cons, List.not_mem_nil, or_false] at hp
      subst hp
      intro c hc
      simp only [Option.getD_some, List.mem_cons, List.not_mem_nil,
        or_false] at hc
      subst hc
      exact usesGivenPath_notNull)

/-- C4: in fail-fast (`throw`) mode, when every constraint of the fields
before field `k` passes, and `c` (at position `cpre.length` in field `k`,
after passing constraints `cpre`) raises violation `e`, `negateObjectAsync`
rejects with exactly `e`, and the invocation trace contains no pair from
any field after `k`: no check of a later schema field is ever started. -/
theorem objectAsync_throw_no_later_field {V : Type} (obj : String → V)
    (pre post : Schema (MixedConstraint V)) (k : String)
    (cpre cpost : List (MixedConstraint V)) (c : MixedConstraint V)
    (e : NegationError) (sched : List Nat)
    (hpre : ∀ p ∈ pre, ∀ c' ∈ p.2.getD [],
      awaitedOutcome (runMixed c' (obj p.1) [p.1]) = .ok ())
    (hcpre : ∀ c' ∈ cpre, awaitedOutcome (runMixed c' (obj k) [k]) = .ok ())
    (hc : awaitedOutcome (runMixed c (obj k) [k]) = .error (.neg e)) :
    (negateObjectAsync obj (pre ++ (k, some (cpre ++ c :: cpost)) :: post)
      throwOpts sched).1 = .error (.neg e)
    ∧ ∀ q ∈ (negateObjectAsync obj
        (pre ++ (k, some (cpre ++ c :: cpost)) :: post) throwOpts sched).2,
      q.1 ≤ pre.length := by
  have h := negateObjectAsyncThrowLoop_firstFail obj pre post k cpre cpost c e
    0 hpre hcpre hc
  have hm : getMode throwOpts = Mode.throw := rfl
  constructor
  · simp [negateObjectAsync, hm, h.1]
  · intro q hq
    have htr : (negateObjectAsync obj
        (pre ++ (k, some (cpre ++ c :: cpost)) :: post) throwOpts sched).2
        = (negateObjectAsyncThrowLoop obj
            (pre ++ (k, some (cpre ++ c :: cpost)) :: post) 0).2 := by
      simp [negateObjectAsync, hm]
    rw [htr] at hq
    simpa using h.2 q hq

theorem objectAsync_throw_no_later_field_witness :
    (negateObjectAsync (fun _ => Val.vStr "x")
      ([("a", some [asMixed notNull])] ++
        ("b", some ([] ++ notDuplicate (fun _ => .ok true) :: [])) ::
          [("c", some [asMixed notNull])]) throwOpts []).1
      = .error (.neg ⟨["b"], "Value must not be a duplicate", "notDuplicate"⟩)
    ∧ ∀ q ∈ (negateObjectAsync (fun _ => Val.vStr "x")
        ([("a", some [asMixed notNull])] ++
          ("b", some ([] ++ notDuplicate (fun _ => .ok true) :: [])) ::
            [("c", some [asMixed notNull])]) throwOpts []).2,
      q.1 ≤ [("a", (some [asMixed notNull] :
        Option (List (MixedConstraint Val))))].length :=
  objectAsync_throw_no_later_field (fun _ => Val.vStr "x")
    [("a", some [asMixed notNull])] [("c", some [asMixed notNull])] "b"
    [] [] (notDuplicate (fun _ => .ok true))
    ⟨["b"], "Value must not be a duplicate", "notDuplicate"⟩ []
    (by
      intro p hp
      simp only [List.mem_cons, List.not_mem_nil, or_false] at hp
      subst hp
      intro c' hc'
      simp only [Option.getD_some, List.mem_cons, List.not_mem_nil,
        or_false] at hc'
      subst hc'
      rfl)
    (by intro c' hc'; exact absurd hc' (List.not_mem_nil c'))
    (by rfl)

/-- C3 counterexample: in collect mode, with field `"a"` (declared first)
carrying an async check whose promise rejects with a violation and field
`"b"` carrying a sync check that throws a violation, the returned sequence
is `[b-violation, a-violation]`: the sync violation is pushed during the
launch loop and the suspended one only at completion, so completion order —
not (field, constraint) declaration order — determines the sequence. -/
theorem objectAsync_collect_completion_order_leaks :
    (negateObjectAsync (fun _ => Val.vNum 0)
      [("a", some [MixedConstraint.named
          (fun _ path => .ok (.retPromise (.error (.neg
            ⟨path, "a is bad", "asyncCheck"⟩)))) "asyncCheck"]),
       ("b", some [MixedConstraint.named
          (fun _ path => .error (.neg ⟨path, "b is bad", "syncCheck"⟩))
          "syncCheck"])]
      collectOpts [0]).1
    = .ok (.errors [⟨["b"], "b is bad", "syncCheck"⟩,
        ⟨["a"], "a is bad", "asyncCheck"⟩]) := rfl

/-- C3 (amended): in collect mode `negateObjectAsync` launches every
constraint of every field; whenever every check completes synchronously
(none suspends) and none faults, the returned sequence is, for every
completion schedule, exactly the declaration-ordered violations — equal to
the synchronous object evaluator's result on the corresponding synchronous
schema. (When checks suspend, their violations are appended after all
synchronously-raised ones in completion order: see the counterexample.) -/
theorem objectAsync_collect_sync_declaration_order {V : Type}
    (obj : String → V) (schema : Schema (MixedConstraint V)) (sched : List Nat)
    (hs : ∀ p ∈ schema, ∀ c ∈ p.2.getD [], SyncRun (runMixed c (obj p.1) [p.1]))
    (hnf : ∀ p ∈ schema, ∀ c ∈ p.2.getD [],
      NoFault (awaitedOutcome (runMixed c (obj p.1) [p.1]))) :
    (negateObjectAsync obj schema collectOpts sched).1
      = .ok (.errors (schemaViolations obj (mapSchema syncOf schema)))
    ∧ (negateObjectAsync obj schema collectOpts sched).1
      = negateObject obj (mapSchema syncOf schema) collectOpts
    ∧ (negateObjectAsync obj schema collectOpts sched).2 = allPairs schema 0 := by
  have hm : getMode collectOpts = Mode.collect := rfl
  have hL := launchAll_syncNoFault obj schema hs hnf
  have h1 : (negateObjectAsync obj schema collectOpts sched).1
      = .ok (.errors (schemaViolations obj (mapSchema syncOf schema))) := by
    simp [negateObjectAsync, hm, hL, settleLoop_nil]
  refine ⟨h1, ?_, ?_⟩
  · have hOb : ∀ p ∈ mapSchema syncOf schema, ∀ c ∈ p.2.getD [],
        NoFault (runConstraint c (obj p.1) [p.1]) := by
      intro p hp c hc
      rcases List.mem_map.mp hp with ⟨q, hq, rfl⟩
      rw [getD_map] at hc
      rcases List.mem_map.mp hc with ⟨c0, hc0, rfl⟩
      rw [runConstraint_syncOf]
      exact hnf q hq c0 hc0
    have hO := negateObjectLoop_collect_noFault obj (mapSchema syncOf schema)
      0 [] hOb
    rw [h1]
    simp [negateObject, hm, hO]
  · simp [negateObjectAsync, hm]

theorem objectAsync_collect_sync_declaration_order_witness :
    (negateObjectAsync
        (fun k => if k = "id" then Val.vNull else Val.vStr "x")
        [("id", some [asMixed notNull]), ("name", some [asMixed notNull])]
        collectOpts [5, 0]).1
      = .ok (.errors (schemaViolations
          (fun k => if k = "id" then Val.vNull else Val.vStr "x")
          (mapSchema syncOf
            [("id", some [asMixed notNull]), ("name", some [asMixed notNull])])))
    ∧ (negateObjectAsync
        (fun k => if k = "id" then Val.vNull else Val.vStr "x")
        [("id", some [asMixed notNull]), ("name", some [asMixed notNull])]
        collectOpts [5, 0]).1
      = negateObject (fun k => if k = "id" then Val.vNull else Val.vStr "x")
          (mapSchema syncOf
            [("id", some [asMixed notNull]), ("name", some [asMixed notNull])])
          collectOpts
    ∧ (negateObjectAsync
        (fun k => if k = "id" then Val.vNull else Val.vStr "x")
        [("id", some [asMixed notNull]), ("name", some [asMixed notNull])]
        collectOpts [5, 0]).2
      = allPairs [("id", (some [asMixed notNull] :
          Option (List (MixedConstraint Val)))),
          ("name", some [asMixed notNull])] 0 :=
  objectAsync_collect_sync_declaration_order
    (fun k => if k = "id" then Val.vNull else Val.vStr "x")
    [("id", some [asMixed notNull]), ("name", some [asMixed notNull])] [5, 0]
    (by
      intro p hp
      simp only [List.mem_cons, List.not_mem_nil, or_false] at hp
      rcases hp with rfl | rfl <;>
        · intro c hc
          simp only [Option.getD_some, List.mem_cons, List.not_mem_nil,
            or_false] at hc
          subst hc
          decide)
    (by
      intro p hp
      simp only [List.mem_cons, List.not_mem_nil, or_false] at hp
      rcases hp with rfl | rfl <;>
        · intro c hc
          simp only [Option.getD_some, List.mem_cons, List.not_mem_nil,
            or_false] at hc
          subst hc
          decide)

end Negation
